import Mathlib

/-!
A verification development for the slyce slicing library (src/src/lib.rs).

The Rust source is shallowly embedded: `usize` values become `Nat`, the
`i128` arithmetic domain becomes `Int` (with explicit range statements where
overflow matters), the truncating `as usize` cast becomes reduction modulo
`2 ^ 64`, and the lazy `Iter` iterator becomes the finite list of the values
it yields.
-/

/-- Rust `i as usize` cast of an `i128` value: truncating two's-complement
conversion, i.e. the value modulo `2 ^ 64`. -/
def usizeOf (i : Int) : Nat := (i % (2 : Int) ^ 64).toNat

/-- `clamp` from src/src/lib.rs (lines 159-167): `n.max(start).min(end)` for an
inclusive range `start..=end`, here passed as the two arguments `lo`, `hi`. -/
def clamp (n lo hi : Int) : Int := min (max n lo) hi

/-- The `Index` enum (lines 113-128): a position inside an array, counted from
the front (`Head`), from the back (`Tail`), or left unspecified (`Default`).
The payloads are `usize`, embedded as `Nat`. -/
inductive Index where
  | Head (n : Nat)
  | Tail (n : Nat)
  | Default
deriving DecidableEq

/-- The raw value the `match` inside `Index::to_bound` (lines 149-157) produces
before clamping: `Head(n) ↦ n as i128`, `Tail(n) ↦ len - (n as i128)`,
`Default ↦ None`. -/
def Index.preBound (idx : Index) (len : Int) : Option Int :=
  match idx with
  | Index.Head n => some (n : Int)
  | Index.Tail n => some (len - (n : Int))
  | Index.Default => none

/-- `Index::to_bound` (lines 149-157): the raw value, clamped into the
inclusive range `lo..=hi`. -/
def Index.to_bound (idx : Index) (len lo hi : Int) : Option Int :=
  (idx.preBound len).map (fun n => clamp n lo hi)

/-- The `Slice` struct (lines 92-97). The source field `end` is a Lean keyword
and is named `stop` here. -/
structure Slice where
  start : Index
  stop : Index
  step : Option Int
deriving DecidableEq

/-- Effective step: `self.step.unwrap_or(1)` in `Slice::indices` (line 178). -/
def Slice.effStep (s : Slice) : Int := s.step.getD 1

/-- `def_start` of `Slice::indices` (line 180): `if step >= 0 { 0 } else { len - 1 }`. -/
def Slice.defStart (s : Slice) (len : Int) : Int :=
  if 0 ≤ s.effStep then 0 else len - 1

/-- `def_end` of `Slice::indices` (line 180): `if step >= 0 { len } else { -1 }`. -/
def Slice.defEnd (s : Slice) (len : Int) : Int :=
  if 0 ≤ s.effStep then len else -1

/-- Lower end of the `bounds` range of `Slice::indices` (lines 182-186):
`def_start..=def_end` when `step >= 0`, `def_end..=def_start` otherwise. -/
def Slice.boundsLo (s : Slice) (len : Int) : Int :=
  if 0 ≤ s.effStep then s.defStart len else s.defEnd len

/-- Upper end of the `bounds` range of `Slice::indices` (lines 182-186). -/
def Slice.boundsHi (s : Slice) (len : Int) : Int :=
  if 0 ≤ s.effStep then s.defEnd len else s.defStart len

/-- The `i` field of the `Iter` built by `Slice::indices` (line 189):
`self.start.to_bound(len, &bounds).unwrap_or(def_start)`. -/
def Slice.resolvedStart (s : Slice) (ulen : Nat) : Int :=
  (s.start.to_bound (ulen : Int) (s.boundsLo ulen) (s.boundsHi ulen)).getD
    (s.defStart ulen)

/-- The `end` field of the `Iter` built by `Slice::indices` (line 190):
`self.end.to_bound(len, &bounds).unwrap_or(def_end)`. -/
def Slice.resolvedEnd (s : Slice) (ulen : Nat) : Int :=
  (s.stop.to_bound (ulen : Int) (s.boundsLo ulen) (s.boundsHi ulen)).getD
    (s.defEnd ulen)

/-- The `Iter` struct (lines 196-200); the source field `end` is named `stop`. -/
structure Iter where
  i : Int
  stop : Int
  step : Int

/-- `Iter::next` (lines 208-226) as a state-passing step function: the yielded
value (if any) together with the updated iterator. A `none` first component is
iterator exhaustion. `self.i += self.step` happens on every call except the
`step == 0` early return. -/
def Iter.next (it : Iter) : Option Nat × Iter :=
  if it.step = 0 then (none, it)
  else
    ((if (if 0 ≤ it.step then it.i < it.stop else it.stop < it.i) then
        some (usizeOf it.i)
      else none),
     ⟨it.i + it.step, it.stop, it.step⟩)

/-- The finite list of all values the iterator yields before its first `none`
(which is how `Slice::apply` and the library's callers consume it). The three
branches are: positive step counts up while `i < end`, negative step counts
down while `i > end`, zero step yields nothing. `toList_eq_next` below proves
this agrees with repeatedly calling `Iter.next`. -/
def Iter.toList (it : Iter) : List Nat :=
  if 0 < it.step then
    (if it.i < it.stop then
       usizeOf it.i :: Iter.toList ⟨it.i + it.step, it.stop, it.step⟩
     else [])
  else if it.step < 0 then
    (if it.stop < it.i then
       usizeOf it.i :: Iter.toList ⟨it.i + it.step, it.stop, it.step⟩
     else [])
  else []
termination_by (if 0 < it.step then (it.stop - it.i).toNat else (it.i - it.stop).toNat)
decreasing_by
  all_goals split_ifs
  all_goals omega

/-- `Slice::indices` (lines 176-193): the sequence of positions selected by the
slice on an array of length `ulen`. -/
def Slice.indices (s : Slice) (ulen : Nat) : List Nat :=
  Iter.toList ⟨s.resolvedStart ulen, s.resolvedEnd ulen, s.effStep⟩

/-- `Slice::apply` (lines 171-173): `self.indices(arr.len()).map(|i| &arr[i])`.
The panicking Rust indexing `arr[i]` is embedded as `arr[i]?`; a `none` element
would be an out-of-bounds panic. -/
def Slice.apply {α : Type u} (s : Slice) (arr : List α) : List (Option α) :=
  (s.indices arr.length).map (fun i => arr[i]?)

/-- Ceiling division `⌈a / b⌉` on integers (`b ≠ 0`), used to state the length
guarantee of the spec. `ceilDiv_eq_ceil_rat` below proves it is the ceiling of the
rational quotient. -/
def ceilDiv (a b : Int) : Int := if 0 < b then -(-a / b) else a / b

/-- Bound resolution exactly as the spec words it (§4.1): `Head(n)` resolves to
`n` and `Tail(n)` to `len − n`, and the result is then clamped into the
direction-dependent legal range — `[0, len]` when ascending (effective step
non-negative), `[−1, len − 1]` when descending. -/
def specResolvedBound (idx : Index) (len : Int) (asc : Bool) : Option Int :=
  (match idx with
   | Index.Head n => some (n : Int)
   | Index.Tail n => some (len - (n : Int))
   | Index.Default => none).map
    (fun v => if asc then clamp v 0 len else clamp v (-1) (len - 1))

/-- `isize::MIN` for the 64-bit target the source assumes (its comment: "This
impl won't work if size_of<usize> >= 16"). -/
def isizeMin : Int := -(2 ^ 63)

/-- `isize::MAX` for a 64-bit target. -/
def isizeMax : Int := 2 ^ 63 - 1

/-- Rust negation `-i` at type `isize` under the checked profile (debug /
overflow-checks on): `none` is the arithmetic-overflow panic, which happens
exactly at `i = isize::MIN`. -/
def negIsizeChecked (i : Int) : Option Int :=
  if isizeMin ≤ -i ∧ -i ≤ isizeMax then some (-i) else none

/-- `impl From<isize> for Index` (lines 235-243) under the checked profile:
`if i < 0 { Tail((-i) as usize) } else { Head(i as usize) }`, where the unary
negation precedes the cast and can overflow (`none`). In the non-overflowing
cases both casts are value-preserving. -/
def indexFromIsizeChecked (i : Int) : Option Index :=
  if i < 0 then (negIsizeChecked i).map (fun m => Index.Tail m.toNat)
  else some (Index.Head i.toNat)

/-- Two's-complement wrap-around into the `i32` range. -/
def wrapI32 (x : Int) : Int := (x + 2 ^ 31) % 2 ^ 32 - 2 ^ 31

/-- Rust `as usize` cast of an `i32` value: sign-extension to 64 bits, i.e. the
value modulo `2 ^ 64`. -/
def usizeOfI32 (x : Int) : Nat := (x % (2 : Int) ^ 64).toNat

/-- `impl From<i32> for Index` (lines 245-253) under the wrapping (release)
profile: `-i` wraps in `i32` and is then sign-extended by `as usize`. -/
def indexFromI32Release (i : Int) : Index :=
  if i < 0 then Index.Tail (usizeOfI32 (wrapI32 (-i)))
  else Index.Head i.toNat

/-- `impl From<Option<U>> for Index` (lines 255-262): `i.map_or(Default,
Into::into)`, instantiated at `U = isize` under the checked profile. -/
def indexFromOptionIsize (o : Option Int) : Option Index :=
  match o with
  | none => some Index.Default
  | some i => indexFromIsizeChecked i

/-! Basic facts about the embedded operations. -/

theorem usizeOf_le {j : Int} (hj : 0 ≤ j) : (usizeOf j : Int) ≤ j := by
  have h64 : (2 : Int) ^ 64 = 18446744073709551616 := by norm_num
  unfold usizeOf
  rw [h64]
  omega

theorem usizeOf_eq_self {j : Int} (h0 : 0 ≤ j) (h : j < 2 ^ 64) :
    (usizeOf j : Int) = j := by
  have h64 : (2 : Int) ^ 64 = 18446744073709551616 := by norm_num
  unfold usizeOf
  rw [h64]
  omega

theorem clamp_le {n lo hi : Int} : clamp n lo hi ≤ hi := by
  unfold clamp
  exact min_le_right _ _

theorem le_clamp {n lo hi : Int} (h : lo ≤ hi) : lo ≤ clamp n lo hi := by
  unfold clamp
  exact le_min (le_max_right _ _) h

theorem clamp_eq_self {n lo hi : Int} (h1 : lo ≤ n) (h2 : n ≤ hi) :
    clamp n lo hi = n := by
  unfold clamp
  rw [max_eq_left h1, min_eq_left h2]

/-! One-step unfolding of `Iter.toList` and its agreement with `Iter.next`. -/

theorem Iter.toList_zero (i e : Int) : Iter.toList ⟨i, e, 0⟩ = [] := by
  rw [Iter.toList.eq_def]
  simp

theorem Iter.toList_pos {i e s : Int} (hs : 0 < s) :
    Iter.toList ⟨i, e, s⟩ =
      if i < e then usizeOf i :: Iter.toList ⟨i + s, e, s⟩ else [] := by
  conv_lhs => rw [Iter.toList.eq_def]
  simp [hs]

theorem Iter.toList_neg {i e s : Int} (hs : s < 0) :
    Iter.toList ⟨i, e, s⟩ =
      if e < i then usizeOf i :: Iter.toList ⟨i + s, e, s⟩ else [] := by
  conv_lhs => rw [Iter.toList.eq_def]
  have h1 : ¬ (0 < s) := by omega
  simp [h1, hs]

/-- The list of yields is what repeatedly calling `Iter::next` produces:
`toList` stops at the first `none` and otherwise conses the yielded value. -/
theorem Iter.toList_eq_next (it : Iter) :
    it.toList =
      (match it.next with
       | (none, _) => []
       | (some m, it2) => m :: it2.toList) := by
  obtain ⟨i, e, s⟩ := it
  rcases lt_trichotomy s 0 with hs | hs | hs
  · have h0 : ¬ (s = 0) := by omega
    have h1 : ¬ (0 ≤ s) := by omega
    rw [Iter.toList_neg hs]
    simp only [Iter.next, h0, h1, if_false]
    by_cases hie : e < i <;> simp [hie]
  · subst hs
    rw [Iter.toList_zero]
    simp [Iter.next]
  · have h0 : ¬ (s = 0) := by omega
    have h1 : 0 ≤ s := by omega
    rw [Iter.toList_pos hs]
    simp only [Iter.next, h0, h1, if_true, if_false]
    by_cases hie : i < e <;> simp [hie]

/-! Arithmetic facts about `ceilDiv`. -/

theorem ceilDiv_le_iff_of_pos {a k s : Int} (hs : 0 < s) :
    ceilDiv a s ≤ k ↔ a ≤ k * s := by
  unfold ceilDiv
  rw [if_pos hs, neg_le, Int.le_ediv_iff_mul_le hs, neg_mul, neg_le_neg_iff]

theorem ceilDiv_le_iff_of_neg {a k s : Int} (hs : s < 0) :
    ceilDiv a s ≤ k ↔ k * s ≤ a := by
  unfold ceilDiv
  rw [if_neg (by omega)]
  have h1 : a / s = -(a / (-s)) := by
    conv_lhs => rw [show s = -(-s) by ring]
    rw [Int.ediv_neg]
  rw [h1, neg_le, Int.le_ediv_iff_mul_le (by omega : (0 : Int) < -s), neg_mul_neg]

theorem ceilDiv_sub_self {a s : Int} (hs : s ≠ 0) :
    ceilDiv (a - s) s = ceilDiv a s - 1 := by
  unfold ceilDiv
  rcases lt_or_gt_of_ne hs with h | h
  · rw [if_neg (by omega), if_neg (by omega),
      show a - s = a + (-1) * s by ring, Int.add_mul_ediv_right _ _ hs]
    ring
  · rw [if_pos h, if_pos h, show -(a - s) = -a + 1 * s by ring,
      Int.add_mul_ediv_right _ _ hs]
    ring

/-! The loop of `Iter.toList` written in closed form: a `List.range` of the
spec's iteration count, mapped through the affine position formula. -/

theorem Iter.toList_master_pos :
    ∀ (n : Nat) (i e s : Int), 0 < s → (e - i).toNat ≤ n →
      Iter.toList ⟨i, e, s⟩ =
        (List.range (ceilDiv (e - i) s).toNat).map
          (fun (k : Nat) => usizeOf (i + (k : Int) * s)) := by
  intro n
  induction n with
  | zero =>
    intro i e s hs hn
    rw [Iter.toList_pos hs, if_neg (by omega)]
    have h0 : ceilDiv (e - i) s ≤ 0 :=
      (ceilDiv_le_iff_of_pos hs).mpr (by omega)
    rw [show (ceilDiv (e - i) s).toNat = 0 by omega]
    simp
  | succ n ih =>
    intro i e s hs hn
    rw [Iter.toList_pos hs]
    by_cases hie : i < e
    · rw [if_pos hie, ih (i + s) e s hs (by omega)]
      have h1 : ceilDiv (e - (i + s)) s = ceilDiv (e - i) s - 1 := by
        rw [show e - (i + s) = (e - i) - s by ring, ceilDiv_sub_self (by omega)]
      have h2 : 1 ≤ ceilDiv (e - i) s := by
        have h3 := ceilDiv_le_iff_of_pos (a := e - i) (k := 0) hs
        omega
      rw [show (ceilDiv (e - i) s).toNat = (ceilDiv (e - (i + s)) s).toNat + 1 by
        omega]
      rw [List.range_succ_eq_map, List.map_cons, List.map_map]
      congr 1
      · simp
      · apply List.map_congr_left
        intro k _
        simp only [Function.comp_apply]
        congr 1
        push_cast
        ring
    · rw [if_neg hie]
      have h0 : ceilDiv (e - i) s ≤ 0 :=
        (ceilDiv_le_iff_of_pos hs).mpr (by omega)
      rw [show (ceilDiv (e - i) s).toNat = 0 by omega]
      simp

theorem Iter.toList_master_neg :
    ∀ (n : Nat) (i e s : Int), s < 0 → (i - e).toNat ≤ n →
      Iter.toList ⟨i, e, s⟩ =
        (List.range (ceilDiv (e - i) s).toNat).map
          (fun (k : Nat) => usizeOf (i + (k : Int) * s)) := by
  intro n
  induction n with
  | zero =>
    intro i e s hs hn
    rw [Iter.toList_neg hs, if_neg (by omega)]
    have h0 : ceilDiv (e - i) s ≤ 0 :=
      (ceilDiv_le_iff_of_neg hs).mpr (by omega)
    rw [show (ceilDiv (e - i) s).toNat = 0 by omega]
    simp
  | succ n ih =>
    intro i e s hs hn
    rw [Iter.toList_neg hs]
    by_cases hie : e < i
    · rw [if_pos hie, ih (i + s) e s hs (by omega)]
      have h1 : ceilDiv (e - (i + s)) s = ceilDiv (e - i) s - 1 := by
        rw [show e - (i + s) = (e - i) - s by ring, ceilDiv_sub_self (by omega)]
      have h2 : 1 ≤ ceilDiv (e - i) s := by
        have h3 := ceilDiv_le_iff_of_neg (a := e - i) (k := 0) hs
        omega
      rw [show (ceilDiv (e - i) s).toNat = (ceilDiv (e - (i + s)) s).toNat + 1 by
        omega]
      rw [List.range_succ_eq_map, List.map_cons, List.map_map]
      congr 1
      · simp
      · apply List.map_congr_left
        intro k _
        simp only [Function.comp_apply]
        congr 1
        push_cast
        ring
    · rw [if_neg hie]
      have h0 : ceilDiv (e - i) s ≤ 0 :=
        (ceilDiv_le_iff_of_neg hs).mpr (by omega)
      rw [show (ceilDiv (e - i) s).toNat = 0 by omega]
      simp

theorem Iter.toList_eq_range_map {i e s : Int} (hs : s ≠ 0) :
    Iter.toList ⟨i, e, s⟩ =
      (List.range (ceilDiv (e - i) s).toNat).map
        (fun (k : Nat) => usizeOf (i + (k : Int) * s)) := by
  rcases lt_or_gt_of_ne hs with h | h
  · exact Iter.toList_master_neg (i - e).toNat i e s h le_rfl
  · exact Iter.toList_master_pos (e - i).toNat i e s h le_rfl

theorem Iter.toList_length {i e s : Int} (hs : s ≠ 0) :
    (Iter.toList ⟨i, e, s⟩).length = (ceilDiv (e - i) s).toNat := by
  rw [Iter.toList_eq_range_map hs]
  simp

/-- Every value yielded by an ascending iteration started at a non-negative
position is strictly below the end bound. -/
theorem Iter.mem_toList_pos_bound {i e s : Int} {m : Nat} (hs : 0 < s)
    (hi : 0 ≤ i) (hm : m ∈ Iter.toList ⟨i, e, s⟩) : (m : Int) < e := by
  rw [Iter.toList_eq_range_map (by omega)] at hm
  simp only [List.mem_map, List.mem_range] at hm
  obtain ⟨k, hk, rfl⟩ := hm
  have hkc : (k : Int) < ceilDiv (e - i) s := by omega
  have hks : ¬ (e - i ≤ (k : Int) * s) := by
    have h4 := ceilDiv_le_iff_of_pos (a := e - i) (k := (k : Int)) hs
    omega
  have hnn : 0 ≤ i + (k : Int) * s :=
    add_nonneg hi (mul_nonneg (by positivity) (le_of_lt hs))
  have h5 := usizeOf_le hnn
  omega

/-- Every value yielded by a descending iteration whose end bound is at least
`-1` is at most the start position. -/
theorem Iter.mem_toList_neg_bound {i e s : Int} {m : Nat} (hs : s < 0)
    (he : -1 ≤ e) (hm : m ∈ Iter.toList ⟨i, e, s⟩) : (m : Int) ≤ i := by
  rw [Iter.toList_eq_range_map (by omega)] at hm
  simp only [List.mem_map, List.mem_range] at hm
  obtain ⟨k, hk, rfl⟩ := hm
  have hkc : (k : Int) < ceilDiv (e - i) s := by omega
  have hks : ¬ ((k : Int) * s ≤ e - i) := by
    have h4 := ceilDiv_le_iff_of_neg (a := e - i) (k := (k : Int)) hs
    omega
  have hnn : 0 ≤ i + (k : Int) * s := by omega
  have hle : (k : Int) * s ≤ 0 :=
    mul_nonpos_of_nonneg_of_nonpos (by positivity) (le_of_lt hs)
  have h5 := usizeOf_le hnn
  omega

/-! The direction-dependent clamping range, and where the resolved bounds live. -/

theorem Slice.boundsLo_asc (s : Slice) (len : Int) (h : 0 ≤ s.effStep) :
    s.boundsLo len = 0 := by
  simp [Slice.boundsLo, Slice.defStart, h]

theorem Slice.boundsHi_asc (s : Slice) (len : Int) (h : 0 ≤ s.effStep) :
    s.boundsHi len = len := by
  simp [Slice.boundsHi, Slice.defEnd, h]

theorem Slice.boundsLo_desc (s : Slice) (len : Int) (h : ¬ 0 ≤ s.effStep) :
    s.boundsLo len = -1 := by
  simp [Slice.boundsLo, Slice.defEnd, h]

theorem Slice.boundsHi_desc (s : Slice) (len : Int) (h : ¬ 0 ≤ s.effStep) :
    s.boundsHi len = len - 1 := by
  simp [Slice.boundsHi, Slice.defStart, h]

theorem Slice.boundsLo_le_boundsHi (s : Slice) (ulen : Nat) :
    s.boundsLo ulen ≤ s.boundsHi ulen := by
  by_cases h : 0 ≤ s.effStep
  · rw [Slice.boundsLo_asc s ulen h, Slice.boundsHi_asc s ulen h]
    positivity
  · rw [Slice.boundsLo_desc s ulen h, Slice.boundsHi_desc s ulen h]
    omega

theorem Slice.resolvedStart_mem (s : Slice) (ulen : Nat) :
    s.boundsLo ulen ≤ s.resolvedStart ulen ∧
      s.resolvedStart ulen ≤ s.boundsHi ulen := by
  have hlh := Slice.boundsLo_le_boundsHi s ulen
  unfold Slice.resolvedStart Index.to_bound
  cases s.start with
  | Head n =>
    simp only [Index.preBound, Option.map_some, Option.getD_some]
    exact ⟨le_clamp hlh, clamp_le⟩
  | Tail n =>
    simp only [Index.preBound, Option.map_some, Option.getD_some]
    exact ⟨le_clamp hlh, clamp_le⟩
  | Default =>
    simp only [Index.preBound, Option.map_none, Option.getD_none]
    by_cases h : 0 ≤ s.effStep
    · rw [Slice.boundsLo_asc s ulen h, Slice.boundsHi_asc s ulen h]
      simp [Slice.defStart, h]
    · rw [Slice.boundsLo_desc s ulen h, Slice.boundsHi_desc s ulen h]
      simp [Slice.defStart, h]

theorem Slice.resolvedEnd_mem (s : Slice) (ulen : Nat) :
    s.boundsLo ulen ≤ s.resolvedEnd ulen ∧
      s.resolvedEnd ulen ≤ s.boundsHi ulen := by
  have hlh := Slice.boundsLo_le_boundsHi s ulen
  unfold Slice.resolvedEnd Index.to_bound
  cases s.stop with
  | Head n =>
    simp only [Index.preBound, Option.map_some, Option.getD_some]
    exact ⟨le_clamp hlh, clamp_le⟩
  | Tail n =>
    simp only [Index.preBound, Option.map_some, Option.getD_some]
    exact ⟨le_clamp hlh, clamp_le⟩
  | Default =>
    simp only [Index.preBound, Option.map_none, Option.getD_none]
    by_cases h : 0 ≤ s.effStep
    · rw [Slice.boundsLo_asc s ulen h, Slice.boundsHi_asc s ulen h]
      simp [Slice.defEnd, h]
    · rw [Slice.boundsLo_desc s ulen h, Slice.boundsHi_desc s ulen h]
      simp [Slice.defEnd, h]

/-! Evaluation lemmas: `indices` in a form the kernel can compute. -/

theorem Slice.indices_eval (s : Slice) (ulen : Nat) (h : s.effStep ≠ 0) :
    s.indices ulen =
      (List.range
          (ceilDiv (s.resolvedEnd ulen - s.resolvedStart ulen) s.effStep).toNat).map
        (fun (k : Nat) => usizeOf (s.resolvedStart ulen + (k : Int) * s.effStep)) := by
  unfold Slice.indices
  exact Iter.toList_eq_range_map h

theorem Slice.indices_of_effStep_zero (s : Slice) (ulen : Nat)
    (h : s.effStep = 0) : s.indices ulen = [] := by
  unfold Slice.indices
  rw [h]
  exact Iter.toList_zero _ _

/-- The truncating cast is the identity on `Nat` values below `2 ^ 64`. -/
theorem usizeOf_natCast {k : Nat} (h : k < 18446744073709551616) :
    usizeOf (k : Int) = k := by
  have h64 : (2 : Int) ^ 64 = 18446744073709551616 := by norm_num
  unfold usizeOf
  rw [h64]
  omega

/-! `ceilDiv` really is the ceiling of the rational quotient. -/

theorem ceilDiv_eq_ceil_of_pos {a b : Int} (hb : 0 < b) :
    ceilDiv a b = ⌈(a : ℚ) / (b : ℚ)⌉ := by
  unfold ceilDiv
  rw [if_pos hb]
  have h1 : (a : ℚ) / (b : ℚ) = -(((-a : Int) : ℚ) / (b : ℚ)) := by
    push_cast
    ring
  rw [h1, Int.ceil_neg]
  congr 1
  have h2 : ((b.toNat : ℕ) : ℚ) = (b : ℚ) := by
    exact_mod_cast Int.toNat_of_nonneg hb.le
  have h4 := Rat.floor_intCast_div_natCast (-a) b.toNat
  rw [h2] at h4
  rw [h4, Int.toNat_of_nonneg hb.le]

theorem ceilDiv_eq_ceil_rat {a b : Int} (hb : b ≠ 0) :
    ceilDiv a b = ⌈(a : ℚ) / (b : ℚ)⌉ := by
  rcases lt_or_gt_of_ne hb with h | h
  · have h2 : ceilDiv a b = ceilDiv (-a) (-b) := by
      unfold ceilDiv
      rw [if_neg (by omega), if_pos (by omega : (0 : Int) < -b), neg_neg,
        Int.ediv_neg, neg_neg]
    rw [h2, ceilDiv_eq_ceil_of_pos (by omega : (0 : Int) < -b)]
    congr 1
    push_cast
    rw [neg_div_neg_eq]
  · exact ceilDiv_eq_ceil_of_pos h

/-! The claims. -/

/-- C1: every position yielded by `indices(len)` lies in `[0, len)` (the lower
bound is inherent: positions are `Nat`), and consequently every element lookup
`arr[i]` performed by `apply(arr)` is in bounds — no `none`, i.e. no panic —
for every combination of start, end and step: arbitrarily large `Head`/`Tail`
magnitudes, zero or huge step magnitude, empty array included. -/
theorem indices_in_bounds (s : Slice) (ulen : Nat) :
    (∀ m ∈ s.indices ulen, m < ulen) ∧
    (∀ {α : Type u} (arr : List α), ∀ o ∈ s.apply arr, o.isSome = true) := by
  have key : ∀ (ul : Nat), ∀ m ∈ s.indices ul, m < ul := by
    intro ul m hm
    unfold Slice.indices at hm
    by_cases h : 0 ≤ s.effStep
    · rcases eq_or_lt_of_le h with heq | hpos
      · rw [← heq, Iter.toList_zero] at hm
        simp at hm
      · have h1 := (Slice.resolvedStart_mem s ul).1
        have h2 := (Slice.resolvedEnd_mem s ul).2
        rw [Slice.boundsLo_asc s ul h] at h1
        rw [Slice.boundsHi_asc s ul h] at h2
        have h3 := Iter.mem_toList_pos_bound hpos h1 hm
        omega
    · have h1 := (Slice.resolvedStart_mem s ul).2
      have h2 := (Slice.resolvedEnd_mem s ul).1
      rw [Slice.boundsHi_desc s ul h] at h1
      rw [Slice.boundsLo_desc s ul h] at h2
      have h3 := Iter.mem_toList_neg_bound (by omega) h2 hm
      omega
  refine ⟨key ulen, ?_⟩
  intro α arr o ho
  unfold Slice.apply at ho
  simp only [List.mem_map] at ho
  obtain ⟨i, hi, rfl⟩ := ho
  rw [List.getElem?_eq_getElem (key arr.length i hi)]
  rfl

/-- Witness for C1: on the full default slice over length 3 the position `2` is
yielded and is `< 3`, and on `[10, 20, 30]` the element `some 20` is produced
and is `isSome`. -/
theorem indices_in_bounds_witness : (2 : Nat) < 3 ∧ (some 20).isSome = true :=
  ⟨(indices_in_bounds.{0} ⟨Index.Default, Index.Default, none⟩ 3).1 2 (by
      rw [Slice.indices_eval _ _ (by decide)]
      decide),
   (indices_in_bounds ⟨Index.Default, Index.Default, none⟩ 3).2 [10, 20, 30]
     (some 20) (by
      unfold Slice.apply
      rw [Slice.indices_eval _ _ (by decide)]
      decide)⟩

/-- C2: the resolved start and end bounds that `Slice::indices` feeds the
iterator are computed exactly as the spec's §4.1 rule: `Head(n)` resolves to
`n` and `Tail(n)` to `len − n`, clamped into `[0, len]` when the effective
step is non-negative (ascending) and into `[−1, len − 1]` when it is negative
(descending, `−1` being the before-index-0 sentinel); `Default` falls back to
the direction-dependent default. -/
theorem resolved_bounds_follow_spec (s : Slice) (ulen : Nat) :
    s.resolvedStart ulen =
      (specResolvedBound s.start (ulen : Int) (decide (0 ≤ s.effStep))).getD
        (s.defStart (ulen : Int)) ∧
    s.resolvedEnd ulen =
      (specResolvedBound s.stop (ulen : Int) (decide (0 ≤ s.effStep))).getD
        (s.defEnd (ulen : Int)) := by
  have hb : ∀ (idx : Index) (d : Int),
      ((idx.to_bound (ulen : Int) (s.boundsLo ulen) (s.boundsHi ulen)).getD d) =
        ((specResolvedBound idx (ulen : Int) (decide (0 ≤ s.effStep))).getD d) := by
    intro idx d
    by_cases h : 0 ≤ s.effStep
    · rw [Slice.boundsLo_asc s ulen h, Slice.boundsHi_asc s ulen h]
      cases idx <;> simp [Index.to_bound, Index.preBound, specResolvedBound, h]
    · rw [Slice.boundsLo_desc s ulen h, Slice.boundsHi_desc s ulen h]
      cases idx <;> simp [Index.to_bound, Index.preBound, specResolvedBound, h]
  exact ⟨hb s.start _, hb s.stop _⟩

/-- C5: a slice whose step field is `Some(0)` (effective step `0`) yields the
empty sequence for every pair of bounds and every length, the empty array
included; no error is produced. -/
theorem zero_step_yields_empty (a b : Index) (ulen : Nat) :
    (Slice.mk a b (some 0)).indices ulen = [] :=
  Slice.indices_of_effStep_zero _ _ rfl

/-- C8 (the code's behavior at the minimum representable input): converting
`isize::MIN` overflows in the pre-cast negation `-i`, so the checked-profile
conversion has no result (a panic) rather than `Tail(2^63)`; the wrapping
(release) `From<i32>` conversion of `i32::MIN` produces
`Tail(18446744071562067968)`, not the `Tail(2147483648)` the claim's mapping
`v ↦ Tail(−v)` prescribes. On all other inputs the conversions do follow the
claimed mapping, as the sample values show, and the optional conversion sends
an absent value to `Default`. -/
theorem from_int_min_overflow :
    indexFromIsizeChecked (-(2 ^ 63)) = none ∧
    indexFromI32Release (-(2 ^ 31)) = Index.Tail 18446744071562067968 ∧
    Index.Tail 18446744071562067968 ≠ Index.Tail 2147483648 ∧
    indexFromIsizeChecked (-(2 ^ 63) + 1) = some (Index.Tail (2 ^ 63 - 1)) ∧
    indexFromIsizeChecked (-1) = some (Index.Tail 1) ∧
    indexFromIsizeChecked 0 = some (Index.Head 0) ∧
    indexFromIsizeChecked 5 = some (Index.Head 5) ∧
    indexFromOptionIsize none = some Index.Default ∧
    indexFromOptionIsize (some (-3)) = some (Index.Tail 3) := by
  refine ⟨?_, ?_, ?_, ?_, ?_, ?_, ?_, ?_, ?_⟩ <;> decide

/-- C9: on the length-5 array `[10, 20, 30, 40, 50]`, the slice
`start=Head(4), end=Head(0), step=Some(-1)` selects `[50, 40, 30, 20]`, and
`start=Tail(1000), end=Head(2000), step=None` clamps both bounds to the full
array and selects `[10, 20, 30, 40, 50]`. -/
theorem concrete_scenarios_len5 :
    (Slice.mk (Index.Head 4) (Index.Head 0) (some (-1))).apply
        [10, 20, 30, 40, 50] = [some 50, some 40, some 30, some 20] ∧
    (Slice.mk (Index.Tail 1000) (Index.Head 2000) none).apply
        [10, 20, 30, 40, 50] = [some 10, some 20, some 30, some 40, some 50] := by
  constructor <;>
    · unfold Slice.apply
      rw [Slice.indices_eval _ _ (by decide)]
      decide

/-! Per-constructor shapes of the resolved bounds. -/

theorem Slice.resolvedStart_head (s : Slice) (ulen : Nat) (n : Nat)
    (hst : s.start = Index.Head n) :
    s.resolvedStart ulen = clamp (n : Int) (s.boundsLo ulen) (s.boundsHi ulen) := by
  unfold Slice.resolvedStart Index.to_bound
  rw [hst]
  simp [Index.preBound]

theorem Slice.resolvedStart_tail (s : Slice) (ulen : Nat) (n : Nat)
    (hst : s.start = Index.Tail n) :
    s.resolvedStart ulen =
      clamp ((ulen : Int) - (n : Int)) (s.boundsLo ulen) (s.boundsHi ulen) := by
  unfold Slice.resolvedStart Index.to_bound
  rw [hst]
  simp [Index.preBound]

theorem Slice.resolvedStart_default (s : Slice) (ulen : Nat)
    (hst : s.start = Index.Default) :
    s.resolvedStart ulen = s.defStart (ulen : Int) := by
  unfold Slice.resolvedStart Index.to_bound
  rw [hst]
  simp [Index.preBound]

theorem Slice.resolvedEnd_head (s : Slice) (ulen : Nat) (n : Nat)
    (hst : s.stop = Index.Head n) :
    s.resolvedEnd ulen = clamp (n : Int) (s.boundsLo ulen) (s.boundsHi ulen) := by
  unfold Slice.resolvedEnd Index.to_bound
  rw [hst]
  simp [Index.preBound]

theorem Slice.resolvedEnd_tail (s : Slice) (ulen : Nat) (n : Nat)
    (hst : s.stop = Index.Tail n) :
    s.resolvedEnd ulen =
      clamp ((ulen : Int) - (n : Int)) (s.boundsLo ulen) (s.boundsHi ulen) := by
  unfold Slice.resolvedEnd Index.to_bound
  rw [hst]
  simp [Index.preBound]

theorem Slice.resolvedEnd_default (s : Slice) (ulen : Nat)
    (hst : s.stop = Index.Default) :
    s.resolvedEnd ulen = s.defEnd (ulen : Int) := by
  unfold Slice.resolvedEnd Index.to_bound
  rw [hst]
  simp [Index.preBound]

/-- C10: the code's policy for a user-supplied `Tail(0)` start, an open
question of the spec: with a non-negative effective step it resolves to `len`
(one past the end) and the sequence is empty for every length and end bound;
with a negative step it clamps to `len − 1` and the slice behaves exactly like
the default descending start. -/
theorem tail_zero_start_policy (e : Index) (st : Option Int) (ulen : Nat) :
    ((Slice.mk (Index.Tail 0) e st).resolvedStart ulen =
        (if 0 ≤ (Slice.mk (Index.Tail 0) e st).effStep then (ulen : Int)
         else (ulen : Int) - 1)) ∧
    ((Slice.mk (Index.Tail 0) e st).indices ulen =
        (if 0 ≤ (Slice.mk (Index.Tail 0) e st).effStep then ([] : List Nat)
         else (Slice.mk Index.Default e st).indices ulen)) := by
  have hrs := Slice.resolvedStart_tail (Slice.mk (Index.Tail 0) e st) ulen 0 rfl
  have hz : (ulen : Int) - ((0 : Nat) : Int) = (ulen : Int) := by simp
  by_cases h : 0 ≤ (Slice.mk (Index.Tail 0) e st).effStep
  · have h1 : (Slice.mk (Index.Tail 0) e st).resolvedStart ulen = (ulen : Int) := by
      rw [hrs, Slice.boundsLo_asc _ _ h, Slice.boundsHi_asc _ _ h, hz]
      exact clamp_eq_self (by positivity) le_rfl
    refine ⟨by rw [h1, if_pos h], ?_⟩
    rw [if_pos h]
    rcases eq_or_lt_of_le h with heq | hpos
    · exact Slice.indices_of_effStep_zero _ _ heq.symm
    · unfold Slice.indices
      rw [Iter.toList_pos hpos]
      have h2 := (Slice.resolvedEnd_mem (Slice.mk (Index.Tail 0) e st) ulen).2
      rw [Slice.boundsHi_asc _ _ h] at h2
      rw [h1, if_neg (by omega)]
  · have h1 : (Slice.mk (Index.Tail 0) e st).resolvedStart ulen = (ulen : Int) - 1 := by
      rw [hrs, Slice.boundsLo_desc _ _ h, Slice.boundsHi_desc _ _ h, hz]
      unfold clamp
      rw [max_eq_left (by omega), min_eq_right (by omega)]
    have h2 : (Slice.mk Index.Default e st).resolvedStart ulen = (ulen : Int) - 1 := by
      rw [Slice.resolvedStart_default _ _ rfl]
      unfold Slice.defStart
      rw [if_neg (show ¬ 0 ≤ (Slice.mk Index.Default e st).effStep from h)]
    refine ⟨by rw [h1, if_neg h], ?_⟩
    rw [if_neg h]
    unfold Slice.indices
    rw [h1, h2]
    rfl

/-- C3: on an array of length 4, a `Tail(n)` bound for any `n ≥ 4` up to the
maximum `usize` yields the same sequence as the fully clamped `Tail(4)` — both
as the start and as the end of an (ascending, default-step) slice — and the
raw value `len − n` is computed in a domain (`i128` in the source, exact
integers here) whose bounds it never leaves for any `usize`-representable
`n` and `len`, so it never wraps before being clamped. -/
theorem tail_huge_resolution (n len : Nat) (h4 : 4 ≤ n) (hlen : len < 2 ^ 64)
    (hn : n < 2 ^ 64) :
    (Slice.mk (Index.Tail n) Index.Default none).indices 4 =
        (Slice.mk (Index.Tail 4) Index.Default none).indices 4 ∧
    (Slice.mk Index.Default (Index.Tail n) none).indices 4 =
        (Slice.mk Index.Default (Index.Tail 4) none).indices 4 ∧
    (∃ b, Index.preBound (Index.Tail n) (len : Int) = some b ∧
        -(2 ^ 127) ≤ b ∧ b < 2 ^ 127) := by
  have h2n : (2 : Nat) ^ 64 = 18446744073709551616 := by norm_num
  rw [h2n] at hlen hn
  refine ⟨?_, ?_, ?_⟩
  · have heff : (Slice.mk (Index.Tail n) Index.Default none).effStep = 1 := rfl
    have hdir : (0 : Int) ≤ (Slice.mk (Index.Tail n) Index.Default none).effStep := by
      rw [heff]
      norm_num
    have hrs : (Slice.mk (Index.Tail n) Index.Default none).resolvedStart 4 = 0 := by
      rw [Slice.resolvedStart_tail _ _ n rfl, Slice.boundsLo_asc _ _ hdir,
        Slice.boundsHi_asc _ _ hdir]
      unfold clamp
      rw [max_eq_right (by omega), min_eq_left (by omega)]
    have hre : (Slice.mk (Index.Tail n) Index.Default none).resolvedEnd 4 =
        ((4 : Nat) : Int) := by
      rw [Slice.resolvedEnd_default _ _ rfl]
      unfold Slice.defEnd
      rw [if_pos hdir]
    rw [Slice.indices_eval _ _ (by rw [heff]; norm_num),
      Slice.indices_eval _ _ (by decide), hrs, hre, heff]
    decide
  · have heff : (Slice.mk Index.Default (Index.Tail n) none).effStep = 1 := rfl
    have hdir : (0 : Int) ≤ (Slice.mk Index.Default (Index.Tail n) none).effStep := by
      rw [heff]
      norm_num
    have hre : (Slice.mk Index.Default (Index.Tail n) none).resolvedEnd 4 = 0 := by
      rw [Slice.resolvedEnd_tail _ _ n rfl, Slice.boundsLo_asc _ _ hdir,
        Slice.boundsHi_asc _ _ hdir]
      unfold clamp
      rw [max_eq_right (by omega), min_eq_left (by omega)]
    have hrs : (Slice.mk Index.Default (Index.Tail n) none).resolvedStart 4 = 0 := by
      rw [Slice.resolvedStart_default _ _ rfl]
      unfold Slice.defStart
      rw [if_pos hdir]
    rw [Slice.indices_eval _ _ (by rw [heff]; norm_num),
      Slice.indices_eval _ _ (by decide), hre, hrs, heff]
    decide
  · refine ⟨(len : Int) - (n : Int), rfl, ?_, ?_⟩
    · rw [show ((2 : Int) ^ 127) = 170141183460469231731687303715884105728 by norm_num]
      omega
    · rw [show ((2 : Int) ^ 127) = 170141183460469231731687303715884105728 by norm_num]
      omega

/-- Witness for C3 at the largest `usize` magnitude. -/
theorem tail_huge_resolution_witness :
    (Slice.mk (Index.Tail 18446744073709551615) Index.Default none).indices 4 =
        (Slice.mk (Index.Tail 4) Index.Default none).indices 4 ∧
    (Slice.mk Index.Default (Index.Tail 18446744073709551615) none).indices 4 =
        (Slice.mk Index.Default (Index.Tail 4) none).indices 4 ∧
    (∃ b, Index.preBound (Index.Tail 18446744073709551615) ((4 : Nat) : Int) = some b ∧
        -(2 ^ 127) ≤ b ∧ b < 2 ^ 127) :=
  tail_huge_resolution 18446744073709551615 4 (by decide) (by decide) (by decide)

/-- C4: with all fields absent `indices` yields `[0, 1, …, L−1]` for every
length `L`, and with step `-1` and both bounds absent it yields
`[L−1, …, 1, 0]`. -/
theorem default_traversals (L : Nat) (hL : L < 2 ^ 64) :
    (Slice.mk Index.Default Index.Default none).indices L = List.range L ∧
    (Slice.mk Index.Default Index.Default (some (-1))).indices L =
      (List.range L).reverse := by
  have h2n : (2 : Nat) ^ 64 = 18446744073709551616 := by norm_num
  rw [h2n] at hL
  constructor
  · have heff : (Slice.mk Index.Default Index.Default none).effStep = 1 := rfl
    rw [Slice.indices_eval _ _ (by rw [heff]; norm_num)]
    have hrs : (Slice.mk Index.Default Index.Default none).resolvedStart L = 0 := rfl
    have hre : (Slice.mk Index.Default Index.Default none).resolvedEnd L = (L : Int) :=
      rfl
    rw [hrs, hre, heff]
    have hc : (ceilDiv ((L : Int) - 0) 1).toNat = L := by
      unfold ceilDiv
      rw [if_pos (by omega : (0 : Int) < 1), Int.ediv_one]
      omega
    rw [hc]
    have hfun : ∀ k ∈ List.range L, usizeOf ((0 : Int) + (k : Int) * 1) = k := by
      intro k hk
      simp only [List.mem_range] at hk
      rw [show (0 : Int) + (k : Int) * 1 = (k : Int) by ring]
      exact usizeOf_natCast (by omega)
    rw [List.map_congr_left hfun, List.map_id']
  · have heff : (Slice.mk Index.Default Index.Default (some (-1))).effStep = -1 := rfl
    rw [Slice.indices_eval _ _ (by rw [heff]; norm_num)]
    have hrs :
        (Slice.mk Index.Default Index.Default (some (-1))).resolvedStart L =
          (L : Int) - 1 := rfl
    have hre :
        (Slice.mk Index.Default Index.Default (some (-1))).resolvedEnd L = -1 := rfl
    rw [hrs, hre, heff]
    have hc : (ceilDiv (-1 - ((L : Int) - 1)) (-1)).toNat = L := by
      rw [show (-1 - ((L : Int) - 1)) = -(L : Int) by ring]
      unfold ceilDiv
      rw [if_neg (by omega), Int.ediv_neg, Int.ediv_one]
      omega
    rw [hc]
    apply List.ext_getElem
    · simp
    · intro j hj1 hj2
      simp only [List.length_map, List.length_range] at hj1
      simp only [List.getElem_map, List.getElem_range, List.getElem_reverse,
        List.length_range]
      rw [show ((L : Int) - 1 + (j : Int) * (-1)) = ((L - 1 - j : Nat) : Int) by
        omega]
      exact usizeOf_natCast (by omega)

/-- Witness for C4 at length 5. -/
theorem default_traversals_witness :
    (Slice.mk Index.Default Index.Default none).indices 5 = List.range 5 ∧
    (Slice.mk Index.Default Index.Default (some (-1))).indices 5 =
      (List.range 5).reverse :=
  default_traversals 5 (by decide)

/-- C6: whenever the effective step `s` is non-zero, the number of positions
`indices(len)` yields is exactly `max(0, ⌈(end − start) / s⌉)` where `start`
and `end` are the resolved, clamped bounds of §4.1 (the quotient taken over
`ℚ`, i.e. real ceiling division; the embedding computes it as `ceilDiv`, with
no intermediate outside the exact integers). -/
theorem indices_length_formula (s : Slice) (len : Nat) (h : s.effStep ≠ 0) :
    ((s.indices len).length : Int) =
      max 0 ⌈((s.resolvedEnd len - s.resolvedStart len : Int) : ℚ) /
          (s.effStep : ℚ)⌉ := by
  unfold Slice.indices
  rw [Iter.toList_length h, ← ceilDiv_eq_ceil_rat h, Int.toNat_eq_max, max_comm]

/-- Witness for C6: steps of 2 over length 5 yield 3 positions. -/
theorem indices_length_formula_witness :
    (((Slice.mk Index.Default Index.Default (some 2)).indices 5).length : Int) =
      max 0 ⌈(((Slice.mk Index.Default Index.Default (some 2)).resolvedEnd 5 -
            (Slice.mk Index.Default Index.Default (some 2)).resolvedStart 5 : Int) : ℚ) /
          ((Slice.mk Index.Default Index.Default (some 2)).effStep : ℚ)⌉ :=
  indices_length_formula (Slice.mk Index.Default Index.Default (some 2)) 5 (by decide)

/-- C7: forward/backward symmetry. For `0 ≤ a ≤ b ≤ L`, the ascending slice
`start=Head(a), end=Head(b), step=1` selects the same positions, in opposite
order, as the descending slice whose start is the Tail-equivalent of `b − 1`
(`Tail(L − b + 1)`), whose end is the Tail-equivalent of `a − 1`
(`Tail(L − a + 1)`, or `Default` when `a = 0` and `a − 1` has no Tail
equivalent), with step `-1`. -/
theorem forward_backward_symmetry (L a b : Nat) (hab : a ≤ b) (hbL : b ≤ L) :
    (Slice.mk (Index.Head a) (Index.Head b) (some 1)).indices L =
      ((Slice.mk (Index.Tail (L - b + 1))
          (if a = 0 then Index.Default else Index.Tail (L - a + 1))
          (some (-1))).indices L).reverse := by
  have heffF : (Slice.mk (Index.Head a) (Index.Head b) (some 1)).effStep = 1 := rfl
  have heffB : (Slice.mk (Index.Tail (L - b + 1))
      (if a = 0 then Index.Default else Index.Tail (L - a + 1))
      (some (-1))).effStep = -1 := rfl
  have hdirF : (0 : Int) ≤ (Slice.mk (Index.Head a) (Index.Head b) (some 1)).effStep := by
    rw [heffF]
    norm_num
  have hdirB : ¬ (0 : Int) ≤
      (Slice.mk (Index.Tail (L - b + 1))
        (if a = 0 then Index.Default else Index.Tail (L - a + 1))
        (some (-1))).effStep := by
    rw [heffB]
    norm_num
  have hFs : (Slice.mk (Index.Head a) (Index.Head b) (some 1)).resolvedStart L =
      (a : Int) := by
    rw [Slice.resolvedStart_head _ _ a rfl, Slice.boundsLo_asc _ _ hdirF,
      Slice.boundsHi_asc _ _ hdirF]
    exact clamp_eq_self (by positivity) (by omega)
  have hFe : (Slice.mk (Index.Head a) (Index.Head b) (some 1)).resolvedEnd L =
      (b : Int) := by
    rw [Slice.resolvedEnd_head _ _ b rfl, Slice.boundsLo_asc _ _ hdirF,
      Slice.boundsHi_asc _ _ hdirF]
    exact clamp_eq_self (by positivity) (by omega)
  have hBs : (Slice.mk (Index.Tail (L - b + 1))
      (if a = 0 then Index.Default else Index.Tail (L - a + 1))
      (some (-1))).resolvedStart L = (b : Int) - 1 := by
    rw [Slice.resolvedStart_tail _ _ (L - b + 1) rfl, Slice.boundsLo_desc _ _ hdirB,
      Slice.boundsHi_desc _ _ hdirB]
    rw [show ((L : Int) - ((L - b + 1 : Nat) : Int)) = (b : Int) - 1 by omega]
    exact clamp_eq_self (by omega) (by omega)
  have hBe : (Slice.mk (Index.Tail (L - b + 1))
      (if a = 0 then Index.Default else Index.Tail (L - a + 1))
      (some (-1))).resolvedEnd L = (a : Int) - 1 := by
    by_cases ha : a = 0
    · rw [Slice.resolvedEnd_default _ _ (by rw [ha]; rfl)]
      unfold Slice.defEnd
      rw [if_neg hdirB, ha]
      simp
    · rw [Slice.resolvedEnd_tail _ _ (L - a + 1) (by rw [if_neg ha])]
      rw [Slice.boundsLo_desc _ _ hdirB, Slice.boundsHi_desc _ _ hdirB]
      rw [show ((L : Int) - ((L - a + 1 : Nat) : Int)) = (a : Int) - 1 by
        have ha1 : 1 ≤ a := Nat.one_le_iff_ne_zero.mpr ha
        omega]
      exact clamp_eq_self (by omega) (by omega)
  rw [Slice.indices_eval _ _ (by rw [heffF]; norm_num),
    Slice.indices_eval _ _ (by rw [heffB]; norm_num),
    hFs, hFe, hBs, hBe, heffF, heffB]
  have hcF : (ceilDiv ((b : Int) - (a : Int)) 1).toNat = b - a := by
    unfold ceilDiv
    rw [if_pos (by omega : (0 : Int) < 1), Int.ediv_one]
    omega
  have hcB : (ceilDiv (((a : Int) - 1) - ((b : Int) - 1)) (-1)).toNat = b - a := by
    rw [show (((a : Int) - 1) - ((b : Int) - 1)) = (a : Int) - b by ring]
    unfold ceilDiv
    rw [if_neg (by omega), Int.ediv_neg, Int.ediv_one]
    omega
  rw [hcF, hcB]
  apply List.ext_getElem
  · simp
  · intro j hj1 hj2
    simp only [List.length_map, List.length_range] at hj1
    simp only [List.getElem_map, List.getElem_range, List.getElem_reverse,
      List.length_map, List.length_range]
    congr 1
    omega

/-- Witness for C7: `start=1, end=3, step=1` on length 4 against
`start=Tail(2), end=Tail(4), step=-1`. -/
theorem forward_backward_symmetry_witness :
    (Slice.mk (Index.Head 1) (Index.Head 3) (some 1)).indices 4 =
      ((Slice.mk (Index.Tail (4 - 3 + 1))
          (if (1 : Nat) = 0 then Index.Default else Index.Tail (4 - 1 + 1))
          (some (-1))).indices 4).reverse :=
  forward_backward_symmetry 4 1 3 (by decide) (by decide)
